import Mathlib

/-!
Shallow embedding of the `sse_solver` crate (`src/sse_solver/src/lib.rs`),
a stochastic Schrödinger equation (SSE) Euler–Maruyama integrator.

The crate works over `Complex<f64>`.  We model floating-point complex
numbers as pairs over an arbitrary field `R` (instantiated with `ℚ` for
executable witnesses and with `ℝ` when the real square root matters), with
the square-root function used by the code (`f64::sqrt`, `norm_l2`) passed
in explicitly as a function `R → R`.

The global thread-local random generator (`rand::thread_rng`) is modelled
as an injected stream `ws : Nat → Cplx R` of standard complex-normal
draws; each noise source consumes one draw per micro-step, in ensemble
order, exactly as the sequential sampling in the code does.
-/

/-- Complex numbers over a base field `R`, mirroring `num_complex::Complex<f64>`. -/
@[ext]
structure Cplx (R : Type) where
  re : R
  im : R
deriving DecidableEq, Repr

namespace Cplx

variable {R : Type} [Field R]

instance : Zero (Cplx R) := ⟨⟨0, 0⟩⟩
instance : One (Cplx R) := ⟨⟨1, 0⟩⟩
instance : Add (Cplx R) := ⟨fun x y => ⟨x.re + y.re, x.im + y.im⟩⟩
instance : Neg (Cplx R) := ⟨fun x => ⟨-x.re, -x.im⟩⟩
instance : Sub (Cplx R) := ⟨fun x y => ⟨x.re - y.re, x.im - y.im⟩⟩
instance : Mul (Cplx R) := ⟨fun x y => ⟨x.re * y.re - x.im * y.im, x.re * y.im + x.im * y.re⟩⟩

/-- `num_complex` complex division `(a+bi)/(c+di)`. -/
instance : Div (Cplx R) :=
  ⟨fun x y =>
    ⟨(x.re * y.re + x.im * y.im) / (y.re * y.re + y.im * y.im),
     (x.im * y.re - x.re * y.im) / (y.re * y.re + y.im * y.im)⟩⟩

@[simp] theorem zero_re : (0 : Cplx R).re = 0 := rfl
@[simp] theorem zero_im : (0 : Cplx R).im = 0 := rfl
@[simp] theorem one_re : (1 : Cplx R).re = 1 := rfl
@[simp] theorem one_im : (1 : Cplx R).im = 0 := rfl
@[simp] theorem add_re (x y : Cplx R) : (x + y).re = x.re + y.re := rfl
@[simp] theorem add_im (x y : Cplx R) : (x + y).im = x.im + y.im := rfl
@[simp] theorem neg_re (x : Cplx R) : (-x).re = -x.re := rfl
@[simp] theorem neg_im (x : Cplx R) : (-x).im = -x.im := rfl
@[simp] theorem sub_re (x y : Cplx R) : (x - y).re = x.re - y.re := rfl
@[simp] theorem sub_im (x y : Cplx R) : (x - y).im = x.im - y.im := rfl
@[simp] theorem mul_re (x y : Cplx R) : (x * y).re = x.re * y.re - x.im * y.im := rfl
@[simp] theorem mul_im (x y : Cplx R) : (x * y).im = x.re * y.im + x.im * y.re := rfl
@[simp] theorem div_re (x y : Cplx R) :
    (x / y).re = (x.re * y.re + x.im * y.im) / (y.re * y.re + y.im * y.im) := rfl
@[simp] theorem div_im (x y : Cplx R) :
    (x / y).im = (x.im * y.re - x.re * y.im) / (y.re * y.re + y.im * y.im) := rfl

instance : CommRing (Cplx R) where
  nsmul := nsmulRec
  zsmul := zsmulRec
  add_assoc := by intros; ext <;> simp <;> ring
  zero_add := by intros; ext <;> simp
  add_zero := by intros; ext <;> simp
  add_comm := by intros; ext <;> simp <;> ring
  mul_assoc := by intros; ext <;> simp <;> ring
  one_mul := by intros; ext <;> simp
  mul_one := by intros; ext <;> simp
  left_distrib := by intros; ext <;> simp <;> ring
  right_distrib := by intros; ext <;> simp <;> ring
  zero_mul := by intros; ext <;> simp
  mul_zero := by intros; ext <;> simp
  mul_comm := by intros; ext <;> simp <;> ring
  sub_eq_add_neg := by intros; ext <;> simp <;> ring
  neg_add_cancel := by intros; ext <;> simp

/-- Complex conjugate, `Complex::conj`. -/
def conj (x : Cplx R) : Cplx R := ⟨x.re, -x.im⟩

/-- Squared modulus, `Complex::norm_sqr` (a real scalar). -/
def normSq (x : Cplx R) : R := x.re * x.re + x.im * x.im

/-- Embedding of a real (`f64`) scalar as a complex number. -/
def ofReal (r : R) : Cplx R := ⟨r, 0⟩

@[simp] theorem conj_re (x : Cplx R) : x.conj.re = x.re := rfl
@[simp] theorem conj_im (x : Cplx R) : x.conj.im = -x.im := rfl
@[simp] theorem ofReal_re (r : R) : (ofReal r).re = r := rfl
@[simp] theorem ofReal_im (r : R) : (ofReal r).im = 0 := rfl
@[simp] theorem ofReal_zero : (ofReal 0 : Cplx R) = 0 := rfl

theorem mul_conj_eq_normSq (x : Cplx R) : x * x.conj = ofReal x.normSq := by
  ext <;> simp [normSq] ; ring

omit [Field R] in
@[simp] theorem mk_re (a b : R) : (Cplx.mk a b).re = a := rfl

omit [Field R] in
@[simp] theorem mk_im (a b : R) : (Cplx.mk a b).im = b := rfl

theorem ofReal_mul (a b : R) : (ofReal a) * (ofReal b) = ofReal (a * b) := by
  ext <;> simp

end Cplx

/-- State vectors (`Array1<Complex<f64>>`): ordered complex amplitudes. -/
abbrev Vec (R : Type) := List (Cplx R)

section VecOps

variable {R : Type} [Field R]

/-- Elementwise vector addition (`ndarray` `+`/`+=`). -/
def vadd (a b : Vec R) : Vec R := List.zipWith (· + ·) a b

/-- Elementwise vector subtraction (`ndarray` `-`). -/
def vsub (a b : Vec R) : Vec R := List.zipWith (· - ·) a b

/-- Scalar multiple of a vector (`ndarray` array `*` scalar). -/
def vsmul (c : Cplx R) (v : Vec R) : Vec R := v.map (fun x => c * x)

/-- Elementwise division of a vector by a complex scalar (`ndarray` `/=`). -/
def vdivC (v : Vec R) (c : Cplx R) : Vec R := v.map (fun x => x / c)

/-- The zero vector of a given length (`Array1::zeros`). -/
def vzero (n : Nat) : Vec R := List.replicate n 0

/-- Unconjugated dot product Σ aᵢ·bᵢ (`ndarray::linalg::Dot` on complex arrays). -/
def dotU (a b : Vec R) : Cplx R := (List.zipWith (· * ·) a b).sum

/-- Σ |vᵢ|², the squared L2 norm (real scalar). -/
def normSqSum (v : Vec R) : R := (v.map Cplx.normSq).sum

/-- `norm_l2` from `ndarray_linalg::Norm`: √(Σ |vᵢ|²), with the square root
of the base field passed explicitly (it is `f64::sqrt` in the code). -/
def norm_l2 (sq : R → R) (v : Vec R) : R := sq (normSqSum v)

/-- Dense matrix–vector product (`Array2::dot`, row-major rows). -/
def denseApply (m : List (Vec R)) (v : Vec R) : Vec R := m.map (fun row => dotU row v)

@[simp] theorem length_vadd (a b : Vec R) : (vadd a b).length = min a.length b.length := by
  simp [vadd]

@[simp] theorem length_vsub (a b : Vec R) : (vsub a b).length = min a.length b.length := by
  simp [vsub]

@[simp] theorem length_vsmul (c : Cplx R) (v : Vec R) : (vsmul c v).length = v.length := by
  simp [vsmul]

@[simp] theorem length_vdivC (v : Vec R) (c : Cplx R) : (vdivC v c).length = v.length := by
  simp [vdivC]

@[simp] theorem length_vzero (n : Nat) : (vzero (R := R) n).length = n := by
  simp [vzero]

end VecOps

/-- The transient per-micro-step accumulator `EulerStep`:
a complex scalar `diagonal_amplitude` and a complex vector `off_diagonal`. -/
@[ext]
structure EulerStep (R : Type) where
  diagonal_amplitude : Cplx R
  off_diagonal : Vec R
deriving DecidableEq

/-- `EulerStep::resolve`: `off_diagonal + (diagonal_amplitude + 1) * state`
(the `+ 1` adds the original state back in). -/
def EulerStep.resolve {R : Type} [Field R] (s : EulerStep R) (state : Vec R) : Vec R :=
  vadd s.off_diagonal (vsmul (s.diagonal_amplitude + 1) state)

/-- A noise source `FullNoiseSource<T, U>`: an operator and its adjoint,
each modelled by its `Dot` capability (the `Tensor` trait is exactly the
ability to apply the operator to a state vector). -/
structure FullNoiseSource (R : Type) where
  operator : Vec R → Vec R
  conjugate_operator : Vec R → Vec R

/-- The expectation value `e = Σ_k conj(ψ_k) · (Lψ)_k` computed by the
`for i in 0..state.len()` loop in `accumulate_euler_step`. -/
def expectationOf {R : Type} [Field R] (state l_state : Vec R) : Cplx R :=
  (List.zipWith (fun s l => Cplx.conj s * l) state l_state).sum

/-- `FullNoiseSource::accumulate_euler_step`.  `sq` is `f64::sqrt`; `w` is the
standard complex-normal draw for this source, so `dw = w * sqrt(dt)`:
```
step.off_diagonal += (Lψ)·(dw + dt·conj(e)) - (L†Lψ)·(dt·0.5)
step.diagonal_amplitude -= 0.5·|e|²·dt + e·dw
```
-/
def FullNoiseSource.accumulate_euler_step {R : Type} [Field R] (src : FullNoiseSource R)
    (sq : R → R) (step : EulerStep R) (state : Vec R) (dt : R) (w : Cplx R) : EulerStep R :=
  let dw := w * Cplx.ofReal (sq dt)
  let l_state := src.operator state
  let l_dagger_l_state := src.conjugate_operator l_state
  let expectation := expectationOf state l_state
  { off_diagonal :=
      vadd step.off_diagonal
        (vsub (vsmul (dw + Cplx.ofReal dt * expectation.conj) l_state)
          (vsmul (Cplx.ofReal (dt * (1 / 2))) l_dagger_l_state)),
    diagonal_amplitude :=
      step.diagonal_amplitude -
        (Cplx.ofReal ((1 / 2) * expectation.normSq * dt) + expectation * dw) }

/-- The `for source in &self.0` loop of `FullNoise::euler_step`: fold every
source, in ensemble order, into the same accumulator; source number `i`
consumes draw `ws i`. -/
def accumSources {R : Type} [Field R] (sq : R → R) :
    List (FullNoiseSource R) → Nat → EulerStep R → Vec R → R → (Nat → Cplx R) → EulerStep R
  | [], _, acc, _, _, _ => acc
  | src :: rest, i, acc, state, dt, ws =>
      accumSources sq rest (i + 1) (src.accumulate_euler_step sq acc state dt (ws i)) state dt ws

/-- The noise ensemble `FullNoise`: an ordered list of noise sources. -/
structure FullNoise (R : Type) where
  sources : List (FullNoiseSource R)

/-- `FullNoise::euler_step` (the `Noise` trait implementation): zero-initialize
an `EulerStep` accumulator, accumulate every source, and resolve against the
state. -/
def FullNoise.euler_step {R : Type} [Field R] (sq : R → R) (noise : FullNoise R)
    (state : Vec R) (dt : R) (ws : Nat → Cplx R) : Vec R :=
  (accumSources sq noise.sources 0 ⟨0, vzero state.length⟩ state dt ws).resolve state

/-- `SSESystem<H, N>`: a Hamiltonian (via its `Dot` capability) and a noise
ensemble. -/
structure SSESystem (R : Type) where
  hamiltonian : Vec R → Vec R
  noise : FullNoise R

/-- `SSESystem::coherent`: `hamiltonian.dot(state) * Complex { re: 0, im: -dt }`
(the time argument is ignored). -/
def SSESystem.coherent {R : Type} [Field R] (sys : SSESystem R) (state : Vec R)
    (_t dt : R) : Vec R :=
  vsmul (Cplx.mk 0 (-dt)) (sys.hamiltonian state)

/-- `SSESystem::stochastic_euler`: delegates to `FullNoise::euler_step`
(the time argument is ignored). -/
def SSESystem.stochastic_euler {R : Type} [Field R] (sq : R → R) (sys : SSESystem R)
    (state : Vec R) (_t dt : R) (ws : Nat → Cplx R) : Vec R :=
  sys.noise.euler_step sq state dt ws

/-- A value of the `System` trait as the solver sees it: the two increment
generators plus the number of random draws one micro-step consumes
(needed to model the shared sequential random stream). -/
structure SystemM (R : Type) where
  coherent : Vec R → R → R → Vec R
  stochastic_euler : Vec R → R → R → (Nat → Cplx R) → Vec R
  ndraws : Nat

/-- The `System` instance of `SSESystem` packaged for the solver. -/
def SSESystem.toSystemM {R : Type} [Field R] (sq : R → R) (sys : SSESystem R) : SystemM R :=
  { coherent := sys.coherent,
    stochastic_euler := sys.stochastic_euler sq,
    ndraws := sys.noise.sources.length }

/-- Drop the first `k` draws of a random stream (they were consumed). -/
def shiftW {R : Type} (ws : Nat → Cplx R) (k : Nat) : Nat → Cplx R := fun i => ws (i + k)

namespace EulerSolver

variable {R : Type} [Field R]

/-- `EulerSolver::step`: `out = system.coherent(...); out += system.stochastic_euler(...)`. -/
def step (sys : SystemM R) (state : Vec R) (t dt : R) (ws : Nat → Cplx R) : Vec R :=
  vadd (sys.coherent state t dt) (sys.stochastic_euler state t dt ws)

/-- `Solver::integrate`: apply `step` `n_step` times with fixed `dt`,
advancing `t` by `dt` each time; each micro-step consumes `sys.ndraws` draws. -/
def integrate (sys : SystemM R) : Vec R → R → Nat → R → (Nat → Cplx R) → Vec R
  | s, _, 0, _, _ => s
  | s, t, m + 1, dt, ws =>
      integrate sys (step sys s t dt ws) (t + dt) m dt (shiftW ws sys.ndraws)

/-- `current /= Complex { re: current.norm_l2(), im: 0 }`: divide the state
by its L2 norm taken as a complex scalar with zero imaginary part. -/
def renormalize (sq : R → R) (v : Vec R) : Vec R :=
  vdivC v (Cplx.ofReal (norm_l2 sq v))

/-- The `for _step_n in 1..n` loop of `Solver::solve`, with `k = n - 1`
remaining iterations: push the current state as a row, integrate one macro
interval (`stepN` micro-steps), advance `t` by `dt * stepN`, renormalize,
and after the loop push the final state. -/
def solveLoop (sq : R → R) (sys : SystemM R) (stepN : Nat) (dt : R) :
    Nat → Vec R → R → (Nat → Cplx R) → List (Vec R)
  | 0, cur, _, _ => [cur]
  | k + 1, cur, t, ws =>
      cur ::
        solveLoop sq sys stepN dt k
          (renormalize sq (integrate sys cur t stepN dt ws))
          (t + dt * (stepN : R)) (shiftW ws (stepN * sys.ndraws))

/-- `Solver::solve`: produce the trajectory, starting from the caller's
initial state at `t = 0`.  The Rust loop `for _step_n in 1..n` runs
`n - 1` times (Nat subtraction, so zero times when `n ≤ 1`). -/
def solve (sq : R → R) (sys : SystemM R) (initial_state : Vec R) (n stepN : Nat)
    (dt : R) (ws : Nat → Cplx R) : List (Vec R) :=
  solveLoop sq sys stepN dt (n - 1) initial_state 0 ws

end EulerSolver

/-- Modelled from the spec: the rank-one factorized operator
`FactorizedArray` lives in the crate's `sparse` module, which is not under
`src/`; per the spec it is a scalar `amplitude` with a `bra` and a `ket`
vector representing `amplitude * |ket⟩⟨bra|`. -/
structure FactorizedArray (R : Type) where
  amplitude : Cplx R
  bra : Vec R
  ket : Vec R

/-- Modelled from the spec: `FactorizedArray::from_bra_ket` packages one
amplitude with one bra row and one ket row. -/
def FactorizedArray.from_bra_ket {R : Type} (a : Cplx R) (b k : Vec R) : FactorizedArray R :=
  ⟨a, b, k⟩

/-- Modelled from the spec: applying the factorized operator to state `ψ`
yields `amplitude * ket * (bra · ψ)`. -/
def FactorizedArray.apply {R : Type} [Field R] (f : FactorizedArray R) (state : Vec R) : Vec R :=
  vsmul (f.amplitude * dotU f.bra state) f.ket

/-- Modelled from the spec: conjugation is algebraic — conjugate the
amplitude and both vectors. -/
def FactorizedArray.conj {R : Type} [Field R] (f : FactorizedArray R) : FactorizedArray R :=
  ⟨f.amplitude.conj, f.bra.map Cplx.conj, f.ket.map Cplx.conj⟩

/-- Modelled from the spec: transposition swaps bra and ket. -/
def FactorizedArray.transpose {R : Type} (f : FactorizedArray R) : FactorizedArray R :=
  ⟨f.amplitude, f.ket, f.bra⟩

/-- `FullNoise::from_bra_ket` (in `lib.rs`): zip the amplitudes with the
bra and ket rows — `Iterator::zip` stops at the shortest input — and build
one `FullNoiseSource` per zipped triple, with
`conjugate_operator = operator.conj().transpose()`. -/
def FullNoise.from_bra_ket {R : Type} [Field R] (amplitudes : List (Cplx R))
    (bra ket : List (Vec R)) : FullNoise R :=
  ⟨(amplitudes.zip (bra.zip ket)).map (fun p =>
      let op := FactorizedArray.from_bra_ket p.1 p.2.1 p.2.2
      { operator := op.apply,
        conjugate_operator := (FactorizedArray.transpose (FactorizedArray.conj op)).apply })⟩


/-! ## General vector lemmas -/

section VecLemmas

variable {R : Type} [Field R]

theorem vsmul_one (v : Vec R) : vsmul 1 v = v := by
  simp [vsmul]

theorem vsmul_zero_vec (v : Vec R) : vsmul 0 v = vzero v.length := by
  induction v with
  | nil => rfl
  | cons a t ih => simp [vsmul, vzero, List.replicate_succ]

theorem vadd_vzero_left (v : Vec R) : vadd (vzero v.length) v = v := by
  induction v with
  | nil => rfl
  | cons a t ih =>
    simp only [List.length_cons, vzero, List.replicate_succ, vadd, List.zipWith_cons_cons,
      zero_add, List.cons.injEq, true_and]
    exact ih

theorem vadd_left_comm (a b c : Vec R) : vadd a (vadd b c) = vadd b (vadd a c) := by
  induction a generalizing b c with
  | nil => cases b <;> cases c <;> rfl
  | cons x xs ih =>
    cases b with
    | nil => rfl
    | cons y ys =>
      cases c with
      | nil => rfl
      | cons z zs =>
        simp only [vadd, List.zipWith_cons_cons, List.cons.injEq]
        exact ⟨by ring, ih ys zs⟩

/-- Resolving an accumulator adds the original state back exactly once:
`off + (d + 1)·ψ = ψ + (off + d·ψ)`. -/
theorem vadd_smul_succ (off ψ : Vec R) (d : Cplx R) :
    vadd off (vsmul (d + 1) ψ) = vadd ψ (vadd off (vsmul d ψ)) := by
  induction off generalizing ψ with
  | nil => cases ψ <;> rfl
  | cons o os ih =>
    cases ψ with
    | nil => rfl
    | cons p ps =>
      simp only [vsmul, List.map_cons, vadd, List.zipWith_cons_cons, List.cons.injEq]
      exact ⟨by ring, ih ps⟩

/-- `FullNoise::euler_step` equals the state plus the accumulated delta:
the `+ 1` in `resolve` is exactly the original state. -/
theorem euler_step_eq_state_add_delta (sq : R → R) (noise : FullNoise R) (ψ : Vec R)
    (dt : R) (ws : Nat → Cplx R) :
    noise.euler_step sq ψ dt ws =
      vadd ψ
        (vadd (accumSources sq noise.sources 0 ⟨0, vzero ψ.length⟩ ψ dt ws).off_diagonal
          (vsmul (accumSources sq noise.sources 0 ⟨0, vzero ψ.length⟩ ψ dt ws).diagonal_amplitude
            ψ)) := by
  unfold FullNoise.euler_step EulerStep.resolve
  exact vadd_smul_succ _ _ _

end VecLemmas

/-! ## Claim theorems (first batch) -/

/-- C1: one Euler–Maruyama micro-step of the solver returns
`ψ' = ψ + coherent(ψ,t,dt) + stochastic(ψ,t,dt)` where the stochastic part
is the ensemble's resolved increment: the resolved increment already
includes the original state (the `+ 1` in `resolve`), the step adds the
coherent term on top, and `ψ` enters exactly once. -/
theorem c1_micro_step_composition {R : Type} [Field R] (sq : R → R) (sys : SSESystem R)
    (ψ : Vec R) (t dt : R) (ws : Nat → Cplx R) :
    EulerSolver.step (sys.toSystemM sq) ψ t dt ws
        = vadd ψ
            (vadd (sys.coherent ψ t dt)
              (vadd
                (accumSources sq sys.noise.sources 0 ⟨0, vzero ψ.length⟩ ψ dt ws).off_diagonal
                (vsmul
                  (accumSources sq sys.noise.sources 0 ⟨0, vzero ψ.length⟩ ψ dt
                      ws).diagonal_amplitude ψ)))
      ∧ sys.noise.euler_step sq ψ dt ws
        = vadd ψ
            (vadd (accumSources sq sys.noise.sources 0 ⟨0, vzero ψ.length⟩ ψ dt ws).off_diagonal
              (vsmul
                (accumSources sq sys.noise.sources 0 ⟨0, vzero ψ.length⟩ ψ dt
                    ws).diagonal_amplitude ψ)) := by
  constructor
  · show vadd (sys.coherent ψ t dt) (sys.noise.euler_step sq ψ dt ws) = _
    rw [euler_step_eq_state_add_delta]
    exact vadd_left_comm _ _ _
  · exact euler_step_eq_state_add_delta sq sys.noise ψ dt ws

/-- C4: accumulating one Euler step for a noise source with operator `L`
and adjoint `L†` adds `(Lψ)·(dW + dt·conj(e)) − (L†Lψ)·(dt/2)` to the
off-diagonal vector and subtracts `e·conj(e)·(dt/2) + e·dW` from the
diagonal amplitude, where `e = Σ_k conj(ψ_k)·(Lψ)_k` and `dW = w·sqrt(dt)`
is the complex Gaussian draw of variance `dt`. -/
theorem c4_accumulate_formula {R : Type} [Field R] (src : FullNoiseSource R) (sq : R → R)
    (acc : EulerStep R) (ψ : Vec R) (dt : R) (w : Cplx R) :
    src.accumulate_euler_step sq acc ψ dt w =
      { off_diagonal :=
          vadd acc.off_diagonal
            (vsub
              (vsmul
                (w * Cplx.ofReal (sq dt)
                  + Cplx.ofReal dt * (expectationOf ψ (src.operator ψ)).conj)
                (src.operator ψ))
              (vsmul (Cplx.ofReal (dt / 2)) (src.conjugate_operator (src.operator ψ)))),
        diagonal_amplitude :=
          acc.diagonal_amplitude -
            (expectationOf ψ (src.operator ψ) * (expectationOf ψ (src.operator ψ)).conj
                * Cplx.ofReal (dt / 2)
              + expectationOf ψ (src.operator ψ) * (w * Cplx.ofReal (sq dt))) } := by
  have h1 : Cplx.ofReal (dt * (1 / 2)) = (Cplx.ofReal (dt / 2) : Cplx R) := by
    ext <;> simp
    ring
  have h2 : (Cplx.ofReal ((1 / 2) * (expectationOf ψ (src.operator ψ)).normSq * dt) : Cplx R)
      = expectationOf ψ (src.operator ψ) * (expectationOf ψ (src.operator ψ)).conj
          * Cplx.ofReal (dt / 2) := by
    rw [Cplx.mul_conj_eq_normSq, Cplx.ofReal_mul]
    exact congrArg _ (by ring)
  simp only [FullNoiseSource.accumulate_euler_step]
  rw [h1, h2]

/-- C5: the combined stochastic Euler increment zero-initializes a step
accumulator, folds every member noise source in ensemble order into that
same accumulator (source `i` consuming draw `ws i`), and resolves it as
`off_diagonal + (diagonal_amplitude + 1)·ψ`. -/
theorem c5_euler_step_structure {R : Type} [Field R] (sq : R → R) (noise : FullNoise R)
    (ψ : Vec R) (dt : R) (ws : Nat → Cplx R) (acc : EulerStep R) (src : FullNoiseSource R)
    (rest : List (FullNoiseSource R)) (i : Nat) :
    noise.euler_step sq ψ dt ws
        = (accumSources sq noise.sources 0 ⟨0, vzero ψ.length⟩ ψ dt ws).resolve ψ
      ∧ acc.resolve ψ = vadd acc.off_diagonal (vsmul (acc.diagonal_amplitude + 1) ψ)
      ∧ accumSources sq (src :: rest) i acc ψ dt ws
          = accumSources sq rest (i + 1) (src.accumulate_euler_step sq acc ψ dt (ws i)) ψ dt ws
      ∧ accumSources sq [] i acc ψ dt ws = acc :=
  ⟨rfl, rfl, rfl, rfl⟩

/-- C6: the system's coherent term equals `-i·dt·H·ψ` where `H` is the
Hamiltonian operator, and its value does not depend on `t`. -/
theorem c6_coherent_term {R : Type} [Field R] (sys : SSESystem R) (ψ : Vec R) (t t' dt : R) :
    sys.coherent ψ t dt = vsmul (-(Cplx.mk 0 1) * Cplx.ofReal dt) (sys.hamiltonian ψ)
      ∧ sys.coherent ψ t dt = sys.coherent ψ t' dt := by
  constructor
  · show vsmul (Cplx.mk 0 (-dt)) (sys.hamiltonian ψ) = _
    have h : -(Cplx.mk 0 1) * Cplx.ofReal dt = (Cplx.mk 0 (-dt) : Cplx R) := by
      ext <;> simp
    rw [h]
  · rfl

/-- C10: `solve` with `n = 0` returns exactly one row, the caller-supplied
initial state, performing no integration micro-steps and no
renormalization (the Rust `for _step_n in 1..0` loop body never runs). -/
theorem c10_solve_n_zero {R : Type} [Field R] (sq : R → R) (sys : SystemM R) (ψ : Vec R)
    (stepN : Nat) (dt : R) (ws : Nat → Cplx R) :
    EulerSolver.solve sq sys ψ 0 stepN dt ws = [ψ] := rfl

/-- Every `solveLoop` output starts with the current state. -/
theorem solveLoop_head {R : Type} [Field R] (sq : R → R) (sys : SystemM R) (stepN : Nat)
    (dt : R) (k : Nat) (cur : Vec R) (t : R) (ws : Nat → Cplx R) :
    (EulerSolver.solveLoop sq sys stepN dt k cur t ws).head? = some cur := by
  cases k <;> rfl

/-- C8: for `n ≥ 1`, row 0 of the returned trajectory is the
caller-supplied initial state exactly — the first row is recorded before
any integration or renormalization takes place. -/
theorem c8_initial_row {R : Type} [Field R] (sq : R → R) (sys : SystemM R) (ψ : Vec R)
    (n stepN : Nat) (dt : R) (ws : Nat → Cplx R) (_hn : 1 ≤ n) :
    (EulerSolver.solve sq sys ψ n stepN dt ws).head? = some ψ :=
  solveLoop_head sq sys stepN dt (n - 1) ψ 0 ws

/-- The zero draw stream over `ℚ`, standing in for the injected random
source in concrete instantiations. -/
def zwsQ : Nat → Cplx ℚ := fun _ => 0

/-- A concrete one-dimensional system over `ℚ`: zero dense Hamiltonian,
empty noise ensemble. -/
def sysQ : SSESystem ℚ := ⟨denseApply [[0]], ⟨[]⟩⟩

/-- Witness for C8 at a concrete input. -/
theorem c8_initial_row_witness :
    (EulerSolver.solve id (sysQ.toSystemM id) [⟨1, 0⟩] 2 1 1 zwsQ).head? = some [⟨1, 0⟩] :=
  c8_initial_row id (sysQ.toSystemM id) [⟨1, 0⟩] 2 1 1 zwsQ (by decide)

/-- C3 amended: `FullNoise::from_bra_ket` never fails; the `Iterator::zip`
calls silently truncate mismatched operator counts, so the constructed
ensemble has `min(#amplitudes, min(#bra rows, #ket rows))` sources. -/
theorem c3_from_bra_ket_truncates {R : Type} [Field R] (amplitudes : List (Cplx R))
    (bra ket : List (Vec R)) :
    (FullNoise.from_bra_ket amplitudes bra ket).sources.length
      = min amplitudes.length (min bra.length ket.length) := by
  simp [FullNoise.from_bra_ket]

/-- C3 counterexample: constructing from two amplitudes but a single
bra row and a single ket row does not fail at construction — it silently
proceeds and yields a one-source ensemble, dropping the second amplitude. -/
theorem c3_counterexample :
    (FullNoise.from_bra_ket (R := ℚ) [⟨1, 0⟩, ⟨2, 0⟩] [[⟨1, 0⟩]] [[⟨1, 0⟩]]).sources.length = 1
      ∧ ([⟨1, 0⟩, ⟨2, 0⟩] : List (Cplx ℚ)).length = 2 :=
  ⟨rfl, rfl⟩

/-! ## Zero-timestep behavior (C2) -/

/-- The dimension contract of the `Tensor` capability: applying an
operator returns a vector of the same dimension. -/
def preservesLength {R : Type} (f : Vec R → Vec R) : Prop :=
  ∀ v, (f v).length = v.length

section ZeroDt

variable {R : Type} [Field R]

theorem vadd_vzero_right (v : Vec R) : vadd v (vzero v.length) = v := by
  induction v with
  | nil => rfl
  | cons a t ih =>
    simp only [List.length_cons, vzero, List.replicate_succ, vadd, List.zipWith_cons_cons,
      add_zero, List.cons.injEq, true_and]
    exact ih

theorem vsub_vzero_vzero (n : Nat) : vsub (vzero n) (vzero n) = vzero (R := R) n := by
  induction n with
  | zero => rfl
  | succ m ih =>
    simp only [vzero, List.replicate_succ, vsub, List.zipWith_cons_cons, sub_zero] at ih ⊢
    rw [ih]

/-- At `dt = 0` a noise source leaves the accumulator untouched: the draw
is scaled by `sqrt(0) = 0` and every other term is scaled by `dt`. -/
theorem accumulate_euler_step_zero_dt (sq : R → R) (src : FullNoiseSource R)
    (acc : EulerStep R) (ψ : Vec R) (w : Cplx R) (hsq0 : sq 0 = 0)
    (hop : (src.operator ψ).length = ψ.length)
    (hadj : (src.conjugate_operator (src.operator ψ)).length = ψ.length)
    (hacc : acc.off_diagonal.length = ψ.length) :
    src.accumulate_euler_step sq acc ψ 0 w = acc := by
  obtain ⟨d, off⟩ := acc
  have hoff : off.length = ψ.length := hacc
  have h1 : w * Cplx.ofReal (sq 0) + Cplx.ofReal 0
      * (expectationOf ψ (src.operator ψ)).conj = 0 := by
    rw [hsq0] ; simp
  have h2 : (Cplx.ofReal (0 * (1 / 2)) : Cplx R) = 0 := by
    rw [zero_mul, Cplx.ofReal_zero]
  simp only [FullNoiseSource.accumulate_euler_step, EulerStep.mk.injEq]
  constructor
  · rw [hsq0] ; simp
  · rw [h1, h2, vsmul_zero_vec, vsmul_zero_vec, hop, hadj, vsub_vzero_vzero, ← hoff,
      vadd_vzero_right]

theorem accumSources_zero_dt (sq : R → R) (srcs : List (FullNoiseSource R)) (i : Nat)
    (acc : EulerStep R) (ψ : Vec R) (ws : Nat → Cplx R) (hsq0 : sq 0 = 0)
    (hsrcs : ∀ src ∈ srcs, (src.operator ψ).length = ψ.length
      ∧ (src.conjugate_operator (src.operator ψ)).length = ψ.length)
    (hacc : acc.off_diagonal.length = ψ.length) :
    accumSources sq srcs i acc ψ 0 ws = acc := by
  induction srcs generalizing i with
  | nil => rfl
  | cons src rest ih =>
    have hsrc := hsrcs src (List.mem_cons_self src rest)
    have hstep : src.accumulate_euler_step sq acc ψ 0 (ws i) = acc :=
      accumulate_euler_step_zero_dt sq src acc ψ (ws i) hsq0 hsrc.1 hsrc.2 hacc
    show accumSources sq rest (i + 1) (src.accumulate_euler_step sq acc ψ 0 (ws i)) ψ 0 ws = acc
    rw [hstep]
    exact ih (i + 1) (fun s hs => hsrcs s (List.mem_cons_of_mem src hs))

theorem euler_step_zero_dt (sq : R → R) (noise : FullNoise R) (ψ : Vec R)
    (ws : Nat → Cplx R) (hsq0 : sq 0 = 0)
    (hsrcs : ∀ src ∈ noise.sources, (src.operator ψ).length = ψ.length
      ∧ (src.conjugate_operator (src.operator ψ)).length = ψ.length) :
    noise.euler_step sq ψ 0 ws = ψ := by
  unfold FullNoise.euler_step
  rw [accumSources_zero_dt sq noise.sources 0 _ ψ ws hsq0 hsrcs (by simp)]
  show vadd (vzero ψ.length) (vsmul (0 + 1) ψ) = ψ
  rw [zero_add, vsmul_one, vadd_vzero_left]

theorem step_zero_dt (sq : R → R) (sys : SSESystem R) (ψ : Vec R) (t : R)
    (ws : Nat → Cplx R) (hsq0 : sq 0 = 0) (hH : (sys.hamiltonian ψ).length = ψ.length)
    (hsrcs : ∀ src ∈ sys.noise.sources, (src.operator ψ).length = ψ.length
      ∧ (src.conjugate_operator (src.operator ψ)).length = ψ.length) :
    EulerSolver.step (sys.toSystemM sq) ψ t 0 ws = ψ := by
  show vadd (sys.coherent ψ t 0) (sys.noise.euler_step sq ψ 0 ws) = ψ
  rw [euler_step_zero_dt sq sys.noise ψ ws hsq0 hsrcs]
  show vadd (vsmul (Cplx.mk 0 (-0)) (sys.hamiltonian ψ)) ψ = ψ
  have h0 : (Cplx.mk 0 (-0) : Cplx R) = 0 := by ext <;> simp
  rw [h0, vsmul_zero_vec, hH, vadd_vzero_left]

theorem integrate_zero_dt (sq : R → R) (sys : SSESystem R) (ψ : Vec R) (m : Nat) (t : R)
    (ws : Nat → Cplx R) (hsq0 : sq 0 = 0) (hH : (sys.hamiltonian ψ).length = ψ.length)
    (hsrcs : ∀ src ∈ sys.noise.sources, (src.operator ψ).length = ψ.length
      ∧ (src.conjugate_operator (src.operator ψ)).length = ψ.length) :
    EulerSolver.integrate (sys.toSystemM sq) ψ t m 0 ws = ψ := by
  induction m generalizing t ws with
  | zero => rfl
  | succ k ih =>
    show EulerSolver.integrate (sys.toSystemM sq) (EulerSolver.step (sys.toSystemM sq) ψ t 0 ws)
        (t + 0) k 0 (shiftW ws (sys.toSystemM sq).ndraws) = ψ
    rw [step_zero_dt sq sys ψ t ws hsq0 hH hsrcs]
    exact ih (t + 0) _

theorem cdiv_one (x : Cplx R) : x / 1 = x := by
  ext <;> simp

theorem vdivC_one (v : Vec R) : vdivC v 1 = v := by
  induction v with
  | nil => rfl
  | cons a t ih =>
    simp only [vdivC, List.map_cons, cdiv_one, List.cons.injEq, true_and] at ih ⊢
    exact ih

theorem renormalize_unit_norm (sq : R → R) (ψ : Vec R) (hsq1 : sq 1 = 1)
    (hψ : normSqSum ψ = 1) : EulerSolver.renormalize sq ψ = ψ := by
  unfold EulerSolver.renormalize norm_l2
  rw [hψ, hsq1]
  show vdivC ψ (Cplx.ofReal 1) = ψ
  have h1 : (Cplx.ofReal 1 : Cplx R) = 1 := rfl
  rw [h1, vdivC_one]

theorem solveLoop_zero_dt (sq : R → R) (sys : SSESystem R) (ψ : Vec R) (stepN k : Nat)
    (t : R) (ws : Nat → Cplx R) (hsq0 : sq 0 = 0) (hsq1 : sq 1 = 1)
    (hψ : normSqSum ψ = 1) (hH : (sys.hamiltonian ψ).length = ψ.length)
    (hsrcs : ∀ src ∈ sys.noise.sources, (src.operator ψ).length = ψ.length
      ∧ (src.conjugate_operator (src.operator ψ)).length = ψ.length) :
    EulerSolver.solveLoop sq (sys.toSystemM sq) stepN 0 k ψ t ws = List.replicate (k + 1) ψ := by
  induction k generalizing t ws with
  | zero => rfl
  | succ m ih =>
    show ψ :: EulerSolver.solveLoop sq (sys.toSystemM sq) stepN 0 m
        (EulerSolver.renormalize sq
          (EulerSolver.integrate (sys.toSystemM sq) ψ t stepN 0 ws)) _ _ = _
    rw [integrate_zero_dt sq sys ψ stepN t ws hsq0 hH hsrcs,
      renormalize_unit_norm sq ψ hsq1 hψ, List.replicate_succ]
    exact congrArg _ (ih _ _)

end ZeroDt

/-- C2 (amended): at `dt = 0`, for every dimension-respecting system and
every initial state of unit L2 norm, `solve` returns `n` rows all equal to
`ψ₀` — the random draw is scaled by `sqrt(0) = 0` and every other
stochastic or coherent term is scaled by `dt = 0`, and the per-macro-step
renormalization divides by `sqrt(1) = 1`. -/
theorem c2_zero_timestep {R : Type} [Field R] (sq : R → R) (sys : SSESystem R) (ψ : Vec R)
    (n stepN : Nat) (ws : Nat → Cplx R) (hn : 1 ≤ n) (hsq0 : sq 0 = 0) (hsq1 : sq 1 = 1)
    (hψ : normSqSum ψ = 1) (hH : (sys.hamiltonian ψ).length = ψ.length)
    (hsrcs : ∀ src ∈ sys.noise.sources, (src.operator ψ).length = ψ.length
      ∧ (src.conjugate_operator (src.operator ψ)).length = ψ.length) :
    EulerSolver.solve sq (sys.toSystemM sq) ψ n stepN 0 ws = List.replicate n ψ := by
  unfold EulerSolver.solve
  rw [solveLoop_zero_dt sq sys ψ stepN (n - 1) 0 ws hsq0 hsq1 hψ hH hsrcs,
    Nat.sub_add_cancel hn]

/-- Witness for C2: three requested rows of a one-dimensional zero-noise
system at `dt = 0` all equal the unit basis state. -/
theorem c2_zero_timestep_witness :
    EulerSolver.solve id (sysQ.toSystemM id) [⟨1, 0⟩] 3 2 0 zwsQ = List.replicate 3 [⟨1, 0⟩] :=
  c2_zero_timestep id sysQ [⟨1, 0⟩] 3 2 zwsQ (by decide) rfl rfl
    (by norm_num [normSqSum, Cplx.normSq])
    (by simp [sysQ, denseApply]) (by intro src hsrc; simp [sysQ] at hsrc)

/-- C2 counterexample: with the (not unit-norm) initial state `[2]`, a zero
Hamiltonian, no noise and `dt = 0`, `solve` returns `[[2], [1]]` — the
per-macro-step renormalization divides row 1 by `‖[2]‖ = 2`, so not every
row equals `ψ₀` even though `dt = 0`. -/
theorem c2_counterexample :
    EulerSolver.solve Real.sqrt (SSESystem.toSystemM Real.sqrt ⟨denseApply [[0]], ⟨[]⟩⟩)
          [⟨2, 0⟩] 2 1 0 (fun _ => 0)
        = [[⟨2, 0⟩], [⟨1, 0⟩]]
      ∧ EulerSolver.solve Real.sqrt (SSESystem.toSystemM Real.sqrt ⟨denseApply [[0]], ⟨[]⟩⟩)
          [⟨2, 0⟩] 2 1 0 (fun _ => 0)
        ≠ List.replicate 2 [⟨2, 0⟩] := by
  have hs4 : Real.sqrt 4 = 2 := by
    rw [show (4 : ℝ) = 2 ^ 2 by norm_num]
    exact Real.sqrt_sq (by norm_num)
  have E : EulerSolver.solve Real.sqrt (SSESystem.toSystemM Real.sqrt ⟨denseApply [[0]], ⟨[]⟩⟩)
      [⟨2, 0⟩] 2 1 0 (fun _ => 0)
      = [[⟨2, 0⟩], [⟨1, 0⟩]] := by
    norm_num [EulerSolver.solve, EulerSolver.solveLoop, EulerSolver.integrate, EulerSolver.step,
      EulerSolver.renormalize, SSESystem.toSystemM, SSESystem.coherent,
      SSESystem.stochastic_euler, FullNoise.euler_step, accumSources, EulerStep.resolve,
      norm_l2, normSqSum, denseApply, dotU, vadd, vsub, vsmul, vdivC, vzero,
      Cplx.normSq, Cplx.ofReal, hs4, Cplx.ext_iff]
  refine ⟨E, ?_⟩
  rw [E]
  intro h
  simp only [List.replicate, List.cons.injEq, Cplx.mk.injEq] at h
  norm_num at h

/-! ## Trajectory shape and integrate structure (C7) -/

section C7Lemmas

variable {R : Type} [Field R]

theorem length_step (sys : SystemM R) (dt : R)
    (hc : ∀ v t, (sys.coherent v t dt).length = v.length)
    (hs : ∀ v t ws, (sys.stochastic_euler v t dt ws).length = v.length)
    (v : Vec R) (t : R) (ws : Nat → Cplx R) :
    (EulerSolver.step sys v t dt ws).length = v.length := by
  simp [EulerSolver.step, hc, hs]

theorem length_integrate (sys : SystemM R) (dt : R)
    (hc : ∀ v t, (sys.coherent v t dt).length = v.length)
    (hs : ∀ v t ws, (sys.stochastic_euler v t dt ws).length = v.length) (m : Nat) :
    ∀ (v : Vec R) (t : R) (ws : Nat → Cplx R),
      (EulerSolver.integrate sys v t m dt ws).length = v.length := by
  induction m with
  | zero => intro v t ws; rfl
  | succ k ih =>
    intro v t ws
    show (EulerSolver.integrate sys (EulerSolver.step sys v t dt ws) (t + dt) k dt
        (shiftW ws sys.ndraws)).length = v.length
    rw [ih]
    exact length_step sys dt hc hs v t ws

theorem length_renormalize (sq : R → R) (v : Vec R) :
    (EulerSolver.renormalize sq v).length = v.length := by
  simp [EulerSolver.renormalize]

theorem solveLoop_length (sq : R → R) (sys : SystemM R) (stepN : Nat) (dt : R) (k : Nat) :
    ∀ (cur : Vec R) (t : R) (ws : Nat → Cplx R),
      (EulerSolver.solveLoop sq sys stepN dt k cur t ws).length = k + 1 := by
  induction k with
  | zero => intro cur t ws; rfl
  | succ m ih =>
    intro cur t ws
    show (cur :: EulerSolver.solveLoop sq sys stepN dt m _ _ _).length = m + 1 + 1
    rw [List.length_cons, ih]

theorem solveLoop_row_lengths (sq : R → R) (sys : SystemM R) (stepN : Nat) (dt : R)
    (hc : ∀ v t, (sys.coherent v t dt).length = v.length)
    (hs : ∀ v t ws, (sys.stochastic_euler v t dt ws).length = v.length) (k : Nat) :
    ∀ (cur : Vec R) (t : R) (ws : Nat → Cplx R),
      (EulerSolver.solveLoop sq sys stepN dt k cur t ws).map List.length
        = List.replicate (k + 1) cur.length := by
  induction k with
  | zero => intro cur t ws; rfl
  | succ m ih =>
    intro cur t ws
    show cur.length :: (EulerSolver.solveLoop sq sys stepN dt m
        (EulerSolver.renormalize sq (EulerSolver.integrate sys cur t stepN dt ws)) _ _).map
          List.length = _
    rw [ih, length_renormalize, length_integrate sys dt hc hs]
    simp [List.replicate_succ]

omit [Field R] in
theorem shiftW_zero (ws : Nat → Cplx R) : shiftW ws 0 = ws := rfl

omit [Field R] in
theorem shiftW_shiftW (ws : Nat → Cplx R) (a b : Nat) :
    shiftW (shiftW ws a) b = shiftW ws (b + a) :=
  funext fun i => by simp [shiftW, Nat.add_assoc]

theorem integrate_succ (sys : SystemM R) (dt : R) (m : Nat) :
    ∀ (v : Vec R) (t : R) (ws : Nat → Cplx R),
      EulerSolver.integrate sys v t (m + 1) dt ws
        = EulerSolver.step sys (EulerSolver.integrate sys v t m dt ws)
            (t + (m : R) * dt) dt (shiftW ws (m * sys.ndraws)) := by
  induction m with
  | zero =>
    intro v t ws
    show EulerSolver.step sys v t dt ws = _
    norm_num [shiftW_zero, EulerSolver.integrate]
  | succ k ih =>
    intro v t ws
    show EulerSolver.integrate sys (EulerSolver.step sys v t dt ws) (t + dt) (k + 1) dt
        (shiftW ws sys.ndraws) = _
    rw [ih (EulerSolver.step sys v t dt ws) (t + dt) (shiftW ws sys.ndraws), shiftW_shiftW]
    have harg : EulerSolver.integrate sys (EulerSolver.step sys v t dt ws) (t + dt) k dt
        (shiftW ws sys.ndraws) = EulerSolver.integrate sys v t (k + 1) dt ws := rfl
    rw [harg]
    have ht : t + dt + (k : R) * dt = t + ((k : Nat) + 1 : R) * dt := by ring
    have hw : k * sys.ndraws + sys.ndraws = (k + 1) * sys.ndraws := by
      rw [Nat.succ_mul]
    rw [ht, hw]
    push_cast
    rfl

end C7Lemmas

/-- C7: for `n ≥ 1` and a dimension-respecting system, `solve` returns
exactly `n` rows, each of dimension `dim`; `integrate` applies `step`
exactly `n_step` times with fixed `dt` — zero steps return the state
unchanged, and step `m + 1` applies `step` to the result of `m` steps at
time `t + m·dt` with the first `m·ndraws` random draws consumed — and
returns only the final state. -/
theorem c7_trajectory_shape {R : Type} [Field R] (sq : R → R) (sys : SystemM R) (ψ : Vec R)
    (n stepN m : Nat) (dt t : R) (ws ws2 : Nat → Cplx R) (hn : 1 ≤ n)
    (hc : ∀ v t, (sys.coherent v t dt).length = v.length)
    (hs : ∀ v t ws, (sys.stochastic_euler v t dt ws).length = v.length) :
    (EulerSolver.solve sq sys ψ n stepN dt ws).length = n
      ∧ (EulerSolver.solve sq sys ψ n stepN dt ws).map List.length
          = List.replicate n ψ.length
      ∧ EulerSolver.integrate sys ψ t 0 dt ws2 = ψ
      ∧ EulerSolver.integrate sys ψ t (m + 1) dt ws2
          = EulerSolver.step sys (EulerSolver.integrate sys ψ t m dt ws2)
              (t + (m : R) * dt) dt (shiftW ws2 (m * sys.ndraws)) := by
  refine ⟨?_, ?_, rfl, integrate_succ sys dt m ψ t ws2⟩
  · unfold EulerSolver.solve
    rw [solveLoop_length, Nat.sub_add_cancel hn]
  · unfold EulerSolver.solve
    rw [solveLoop_row_lengths sq sys stepN dt hc hs, Nat.sub_add_cancel hn]

/-- A concrete dimension-preserving system over `ℚ` directly implementing
the `System` capabilities (zero coherent part, identity stochastic part). -/
def sysMQ : SystemM ℚ := ⟨fun v _ _ => vsmul 0 v, fun v _ _ _ => v, 0⟩

/-- Witness for C7 at a concrete input. -/
theorem c7_trajectory_shape_witness :
    (EulerSolver.solve id sysMQ [⟨1, 0⟩] 2 1 1 zwsQ).length = 2
      ∧ (EulerSolver.solve id sysMQ [⟨1, 0⟩] 2 1 1 zwsQ).map List.length
          = List.replicate 2 1
      ∧ EulerSolver.integrate sysMQ [⟨1, 0⟩] 0 0 1 zwsQ = [⟨1, 0⟩]
      ∧ EulerSolver.integrate sysMQ [⟨1, 0⟩] 0 (1 + 1) 1 zwsQ
          = EulerSolver.step sysMQ (EulerSolver.integrate sysMQ [⟨1, 0⟩] 0 1 1 zwsQ)
              (0 + (1 : ℚ) * 1) 1 (shiftW zwsQ (1 * sysMQ.ndraws)) := by
  have h := c7_trajectory_shape id sysMQ [⟨1, 0⟩] 2 1 1 1 0 zwsQ zwsQ (by decide)
    (by intro v t; simp [sysMQ]) (by intro v t ws; rfl)
  have hlen : ([⟨1, 0⟩] : Vec ℚ).length = 1 := rfl
  exact ⟨h.1, hlen ▸ h.2.1, h.2.2.1, by push_cast ; exact h.2.2.2⟩

/-! ## Renormalization invariant (C9) -/

/-- The advanced (pre-renormalization) state at every macro-step of the
`solve` loop has nonzero squared L2 norm.  This is the hypothesis under
which renormalization produces unit-norm rows; it fails exactly when a
macro-step drives the state to the zero vector (where the code divides by
a zero norm). -/
def macroNonzero {R : Type} [Field R] (sq : R → R) (sys : SystemM R) (stepN : Nat) (dt : R) :
    Nat → Vec R → R → (Nat → Cplx R) → Prop
  | 0, _, _, _ => True
  | k + 1, cur, t, ws =>
      normSqSum (EulerSolver.integrate sys cur t stepN dt ws) ≠ 0 ∧
      macroNonzero sq sys stepN dt k
        (EulerSolver.renormalize sq (EulerSolver.integrate sys cur t stepN dt ws))
        (t + dt * (stepN : R)) (shiftW ws (stepN * sys.ndraws))

theorem normSqSum_nonneg (v : Vec ℝ) : 0 ≤ normSqSum v := by
  induction v with
  | nil => simp [normSqSum]
  | cons a t ih =>
    simp only [normSqSum, List.map_cons, List.sum_cons] at ih ⊢
    have ha : 0 ≤ a.normSq := by
      have h1 := mul_self_nonneg a.re
      have h2 := mul_self_nonneg a.im
      unfold Cplx.normSq
      linarith
    linarith

theorem normSq_div_ofReal (x : Cplx ℝ) (s : ℝ) :
    Cplx.normSq (x / Cplx.ofReal s) = Cplx.normSq x / (s * s) := by
  rcases eq_or_ne s 0 with h | h
  · subst h
    simp [Cplx.normSq]
  · simp only [Cplx.normSq, Cplx.div_re, Cplx.div_im, Cplx.ofReal_re, Cplx.ofReal_im]
    field_simp
    ring

theorem normSqSum_vdivC_ofReal (v : Vec ℝ) (s : ℝ) :
    normSqSum (vdivC v (Cplx.ofReal s)) = normSqSum v / (s * s) := by
  induction v with
  | nil => simp [normSqSum, vdivC]
  | cons a t ih =>
    simp only [vdivC, List.map_cons, normSqSum, List.sum_cons] at ih ⊢
    rw [normSq_div_ofReal, ih, add_div]

theorem norm_l2_renormalize_eq_one (v : Vec ℝ) (hv : normSqSum v ≠ 0) :
    norm_l2 Real.sqrt (EulerSolver.renormalize Real.sqrt v) = 1 := by
  have hpos : 0 < normSqSum v := lt_of_le_of_ne (normSqSum_nonneg v) (Ne.symm hv)
  unfold EulerSolver.renormalize norm_l2
  rw [normSqSum_vdivC_ofReal, Real.mul_self_sqrt (le_of_lt hpos), div_self hv]
  exact Real.sqrt_one

theorem solveLoop_norms (sys : SystemM ℝ) (stepN : Nat) (dt : ℝ) (k : Nat) :
    ∀ (cur : Vec ℝ) (t : ℝ) (ws : Nat → Cplx ℝ),
      macroNonzero Real.sqrt sys stepN dt k cur t ws →
      (EulerSolver.solveLoop Real.sqrt sys stepN dt k cur t ws).map (norm_l2 Real.sqrt)
        = norm_l2 Real.sqrt cur :: List.replicate k 1 := by
  induction k with
  | zero => intro cur t ws _; rfl
  | succ m ih =>
    intro cur t ws h
    obtain ⟨h1, h2⟩ := h
    show norm_l2 Real.sqrt cur ::
        (EulerSolver.solveLoop Real.sqrt sys stepN dt m
          (EulerSolver.renormalize Real.sqrt
            (EulerSolver.integrate sys cur t stepN dt ws)) _ _).map (norm_l2 Real.sqrt) = _
    rw [ih _ _ _ h2, norm_l2_renormalize_eq_one _ h1, List.replicate_succ]

/-- C9 (amended): for `dt > 0` and `n ≥ 2`, every trajectory row after
row 0 has L2 norm exactly 1, provided the advanced state before each
renormalization has nonzero norm (the code divides the advanced state by
its L2 norm taken as a complex scalar with zero imaginary part; if an
advanced state is the zero vector the division is by zero and the returned
row does not have norm 1). -/
theorem c9_renormalized_rows (sys : SystemM ℝ) (ψ : Vec ℝ) (n stepN : Nat) (dt : ℝ)
    (ws : Nat → Cplx ℝ) (_hdt : 0 < dt) (_hn : 2 ≤ n)
    (hnz : macroNonzero Real.sqrt sys stepN dt (n - 1) ψ 0 ws) :
    (EulerSolver.solve Real.sqrt sys ψ n stepN dt ws).tail.map (norm_l2 Real.sqrt)
      = List.replicate (n - 1) 1 := by
  have h := solveLoop_norms sys stepN dt (n - 1) ψ 0 ws hnz
  unfold EulerSolver.solve
  rw [List.map_tail, h]
  rfl

/-- Witness for C9 at a concrete input: one macro-step of a zero-noise,
zero-Hamiltonian one-dimensional system preserves the unit state, so the
single row after row 0 has norm 1. -/
theorem c9_renormalized_rows_witness :
    (EulerSolver.solve Real.sqrt (SSESystem.toSystemM Real.sqrt ⟨denseApply [[0]], ⟨[]⟩⟩)
        [⟨1, 0⟩] 2 1 1 (fun _ => 0)).tail.map (norm_l2 Real.sqrt) = List.replicate 1 1 :=
  c9_renormalized_rows (SSESystem.toSystemM Real.sqrt ⟨denseApply [[0]], ⟨[]⟩⟩) [⟨1, 0⟩]
    2 1 1 (fun _ => 0) (by norm_num) (by norm_num)
    (by
      norm_num [macroNonzero, EulerSolver.integrate, EulerSolver.step, SSESystem.toSystemM,
        SSESystem.coherent, SSESystem.stochastic_euler, FullNoise.euler_step, accumSources,
        EulerStep.resolve, denseApply, dotU, vadd, vsub, vsmul, vzero, normSqSum,
        Cplx.normSq, shiftW])

/-- C9 counterexample: with Hamiltonian `[[-i]]`, `dt = 1 > 0` and `n = 2`,
the micro-step sends `[1]` to the zero vector (`coherent = -ψ` cancels the
resolved stochastic increment `ψ`), so the advanced state is divided by a
zero norm; the returned row 1 is the zero vector (`NaN` in `f64`), whose
L2 norm is 0, not 1. -/
theorem c9_counterexample :
    EulerSolver.solve Real.sqrt
          (SSESystem.toSystemM Real.sqrt ⟨denseApply [[⟨0, -1⟩]], ⟨[]⟩⟩)
          [⟨1, 0⟩] 2 1 1 (fun _ => 0)
        = [[⟨1, 0⟩], [⟨0, 0⟩]]
      ∧ norm_l2 Real.sqrt [(⟨0, 0⟩ : Cplx ℝ)] = 0
      ∧ (0 : ℝ) ≠ 1 := by
  refine ⟨?_, ?_, by norm_num⟩
  · norm_num [EulerSolver.solve, EulerSolver.solveLoop, EulerSolver.integrate, EulerSolver.step,
      EulerSolver.renormalize, SSESystem.toSystemM, SSESystem.coherent,
      SSESystem.stochastic_euler, FullNoise.euler_step, accumSources, EulerStep.resolve,
      norm_l2, normSqSum, denseApply, dotU, vadd, vsub, vsmul, vdivC, vzero,
      Cplx.normSq, Cplx.ofReal, Real.sqrt_zero, Cplx.ext_iff]
  · norm_num [norm_l2, normSqSum, Cplx.normSq, Real.sqrt_zero]
